import Mathlib

/-!
Verification development for the smart-store OLAP pipeline.

The definitions below are a shallow embedding of the two source modules
`src/analytics_project/OLAP/cubing.py` and
`src/analytics_project/OLAP/revenue_by_region.py`.  Data frames are lists of
positionally aligned cell values, pandas numerics are modelled as exact
rationals, missing values (NaN/None) as an explicit `null` cell, and the
fallible library operations (group-by on a missing column, aggregation with an
unknown or duplicated function name) as `Except` errors at the points where
the Python code would raise.
-/

/-- A cell value in a data frame: missing (NaN/None), a string, or a number. -/
inductive Value where
  | null : Value
  | str (s : String) : Value
  | num (q : Rat) : Value
deriving DecidableEq, Repr

/-- A source sale record: the distinguished `sale_id` column plus the remaining
cells, positionally aligned with the table's column-name list. -/
structure SaleRow where
  sale_id : Int
  cells : List Value
deriving DecidableEq, Repr

/-- An input data frame: column names for the non-`sale_id` cells and rows. -/
structure Table where
  cols : List String
  rows : List SaleRow
deriving DecidableEq, Repr

/-- A metrics-dictionary entry: either a single aggregation-function name
(`{"sale_amount": "sum"}`) or a list of names (`{"sale_amount": ["sum","mean"]}`),
mirroring the `isinstance(agg_funcs, list)` test in `generate_column_names`. -/
inductive AggSpec where
  | single (f : String) : AggSpec
  | many (fs : List String) : AggSpec
deriving DecidableEq, Repr

/-- The aggregation-function names accepted by the aggregation backend; the
spec fixes the minimum set sum, mean, count, min, max, and the model restricts
to it (any other name makes the aggregation raise, as pandas does for an
unknown string function). -/
def validAggs : List String := ["sum", "mean", "count", "min", "max"]

/-- The function names of one metrics entry, in order. -/
def aggList : AggSpec → List String
  | .single f => [f]
  | .many fs => fs

/-- All (metric column, aggregation function) pairs of a metrics dictionary,
in dictionary / list order. -/
def metricPairs (metrics : List (String × AggSpec)) : List (String × String) :=
  metrics.flatMap fun m => (aggList m.2).map (fun f => (m.1, f))

/-- Drop trailing underscores from a character list (`str.rstrip("_")`). -/
def rstripUnderscoreList (l : List Char) : List Char :=
  (l.reverse.dropWhile (fun ch => ch = '_')).reverse

/-- Drop trailing underscores from a string (`str.rstrip("_")`). -/
def rstripUnderscore (s : String) : String :=
  ⟨rstripUnderscoreList s.data⟩

/-- Embedding of `generate_column_names`: dimensions first, then one
`f"{column}_{func}"` name per (metric, function) pair in dictionary order,
then `rstrip("_")` applied to every name. -/
def generate_column_names (dimensions : List String)
    (metrics : List (String × AggSpec)) : List String :=
  (dimensions ++ (metricPairs metrics).map (fun p => p.1 ++ "_" ++ p.2)).map
    rstripUnderscore

/-- Look up a cell of a row by column name (first matching column). -/
def getCell (cols : List String) (r : SaleRow) (c : String) : Option Value :=
  (List.findIdx? (fun x => x = c) cols).bind (fun i => r.cells[i]?)

/-- Cell lookup with `null` as the default for an absent column. -/
def getCellD (cols : List String) (r : SaleRow) (c : String) : Value :=
  (getCell cols r c).getD .null

/-- The group-by key of a row: the tuple of its dimension-column values, or
`none` when some dimension cell is missing (`NaN`), in which case pandas
`groupby` silently drops the row from every group. -/
def rowKey (cols : List String) (dims : List String) (r : SaleRow) :
    Option (List Value) :=
  (dims.mapM (fun d => getCell cols r d)).bind
    (fun vs => if vs.contains .null then none else some vs)

/-- Fuel-indexed worker for `groupPartition`; the fuel is an upper bound on
the list length, so the base case with exhausted fuel is never reached. -/
def groupPartitionAux {κ ρ : Type} [DecidableEq κ] :
    Nat → List (κ × ρ) → List (κ × List ρ)
  | _, [] => []
  | 0, _ :: _ => []
  | fuel + 1, (k, r) :: rest =>
      (k, r :: (rest.filter (fun p => p.1 = k)).map (fun p => p.2)) ::
        groupPartitionAux fuel (rest.filter (fun p => ¬ p.1 = k))

/-- Group a keyed list into (key, values-of-that-key) buckets, keys in first
occurrence order, each bucket keeping the original relative order of its rows. -/
def groupPartition {κ ρ : Type} [DecidableEq κ] (l : List (κ × ρ)) :
    List (κ × List ρ) :=
  groupPartitionAux l.length l

/-- The numeric entries of a column slice, skipping nulls and strings
(pandas numeric aggregation is `skipna`). -/
def aggNums (vs : List Value) : List Rat :=
  vs.filterMap fun v => match v with | .num q => some q | _ => none

/-- Semantics of one aggregation function on a column slice. -/
def applyAgg (f : String) (vs : List Value) : Value :=
  if f = "sum" then .num (aggNums vs).sum
  else if f = "mean" then
    match aggNums vs with
    | [] => .null
    | ns => .num (ns.sum / (ns.length : Rat))
  else if f = "count" then .num ((vs.filter (fun v => v ≠ .null)).length : Rat)
  else if f = "min" then
    match aggNums vs with
    | [] => .null
    | n :: ns => .num (ns.foldl min n)
  else if f = "max" then
    match aggNums vs with
    | [] => .null
    | n :: ns => .num (ns.foldl max n)
  else .null

/-- One row of the flattened OLAP cube: the dimension values, the aggregated
metric cells, and the `sale_ids` traceability list. -/
structure CubeRow where
  key : List Value
  aggs : List Value
  sale_ids : List Int
deriving DecidableEq, Repr

/-- The flattened OLAP cube. -/
structure Cube where
  cols : List String
  rows : List CubeRow
deriving DecidableEq, Repr

/-- Does a list contain a duplicate element? -/
def hasDups {α : Type} [DecidableEq α] : List α → Bool
  | [] => false
  | a :: as => as.contains a || hasDups as

/-- Every metrics entry with a list value has pairwise distinct function names
(pandas raises `SpecificationError: Function names must be unique` otherwise). -/
def aggsNodup (metrics : List (String × AggSpec)) : Bool :=
  metrics.all fun m =>
    match m.2 with
    | .single _ => true
    | .many fs => !hasDups fs

/-- Embedding of `create_olap_cube`: group the rows by the dimension columns
(dropping rows with a null dimension cell, as pandas `groupby` does), apply
every requested aggregation per group, attach the per-group `sale_id` list,
and name the columns with `generate_column_names` plus a final `sale_ids`.
Errors model the exceptions the Python code propagates: an empty dimensions
list (pandas `groupby([])` raises `ValueError: No group keys passed!`, and on
an empty frame the zero-group aggregate breaks the length-checked column
rename), a missing dimension or metric column (KeyError), an unknown
aggregation-function name, or duplicated function names for one metric. -/
def create_olap_cube (t : Table) (dimensions : List String)
    (metrics : List (String × AggSpec)) : Except String Cube :=
  if dimensions.isEmpty then
    .error "ValueError: no group keys passed"
  else if !dimensions.all (fun d => t.cols.contains d) then
    .error "KeyError: missing dimension column"
  else if !metrics.all (fun m => t.cols.contains m.1) then
    .error "KeyError: missing metric column"
  else if !(metricPairs metrics).all (fun p => validAggs.contains p.2) then
    .error "AttributeError: not a valid aggregation function"
  else if !aggsNodup metrics then
    .error "SpecificationError: function names must be unique"
  else
    let keyed := t.rows.filterMap
      (fun r => (rowKey t.cols dimensions r).map (fun k => (k, r)))
    let groups := groupPartition keyed
    .ok
      { cols := generate_column_names dimensions metrics ++ ["sale_ids"],
        rows := groups.map fun g =>
          { key := g.1,
            aggs := (metricPairs metrics).map
              (fun p => applyAgg p.2 (g.2.map (fun r => getCellD t.cols r p.1))),
            sale_ids := g.2.map (fun r => r.sale_id) } }

/-- Example: two rows in one region group, one in another. -/
example :
    (create_olap_cube
      { cols := ["region", "sale_amount"],
        rows := [⟨1, [.str "East", .num 10]⟩, ⟨2, [.str "West", .num 5]⟩,
                 ⟨3, [.str "East", .num 20]⟩] }
      ["region"] [("sale_amount", .single "sum")]).toOption =
    some
      { cols := ["region", "sale_amount_sum", "sale_ids"],
        rows := [⟨[.str "East"], [.num 30], [1, 3]⟩,
                 ⟨[.str "West"], [.num 5], [2]⟩] } := by
  simp [create_olap_cube, groupPartition, groupPartitionAux, rowKey, getCell,
    getCellD, metricPairs, aggList, generate_column_names, rstripUnderscore,
    rstripUnderscoreList, applyAgg, aggNums, aggsNodup, hasDups,
    List.findIdx?, List.filter]
  norm_num [validAggs, Except.toOption]

/-! ### String lemmas about generated column names -/

/-- `rstrip("_")` leaves a character list alone when its last character is not
an underscore. -/
theorem rstripUnderscoreList_append_ne (l : List Char) (a : Char) (ha : a ≠ '_') :
    rstripUnderscoreList (l ++ [a]) = l ++ [a] := by
  unfold rstripUnderscoreList
  rw [List.reverse_append]
  simp [List.dropWhile, ha]

/-- `rstrip("_")` leaves `{column}_{func}` alone for every valid
aggregation-function name (none ends in an underscore). -/
theorem rstripUnderscore_colName (c f : String) (hf : f ∈ validAggs) :
    rstripUnderscore (c ++ "_" ++ f) = c ++ "_" ++ f := by
  have key : ∀ (s : String) (l : List Char) (a : Char), a ≠ '_' →
      s.data = l ++ [a] → rstripUnderscore s = s := by
    intro s l a ha hs
    unfold rstripUnderscore
    rw [hs, rstripUnderscoreList_append_ne l a ha]
    cases s
    simp_all
  fin_cases hf
  · exact key _ ((c ++ "_" ++ "sum").data.dropLast) 'm' (by decide) (by
      simp [String.data_append])
  · exact key _ ((c ++ "_" ++ "mean").data.dropLast) 'n' (by decide) (by
      simp [String.data_append])
  · exact key _ ((c ++ "_" ++ "count").data.dropLast) 't' (by decide) (by
      simp [String.data_append])
  · exact key _ ((c ++ "_" ++ "min").data.dropLast) 'n' (by decide) (by
      simp [String.data_append])
  · exact key _ ((c ++ "_" ++ "max").data.dropLast) 'x' (by decide) (by
      simp [String.data_append])

/-- Unique decomposition around a separator: if neither prefix contains the
separator character, equal concatenations force equal parts. -/
theorem sep_split_unique (sep : Char) :
    ∀ (s1 s2 b1 b2 : List Char), sep ∉ s1 → sep ∉ s2 →
      s1 ++ sep :: b1 = s2 ++ sep :: b2 → s1 = s2 ∧ b1 = b2 := by
  intro s1
  induction s1 with
  | nil =>
    intro s2 b1 b2 _ h2 h
    cases s2 with
    | nil => simpa using h
    | cons c cs =>
      simp only [List.nil_append, List.cons_append, List.cons.injEq] at h
      have hmem : sep ∈ c :: cs := by
        rw [h.1]
        exact List.mem_cons_self c cs
      exact absurd hmem h2
  | cons c cs ih =>
    intro s2 b1 b2 h1 h2 h
    cases s2 with
    | nil =>
      simp only [List.cons_append, List.nil_append, List.cons.injEq] at h
      have hmem : sep ∈ c :: cs := by
        rw [← h.1]
        exact List.mem_cons_self c cs
      exact absurd hmem h1
    | cons d ds =>
      simp only [List.cons_append, List.cons.injEq] at h
      obtain ⟨rfl, h⟩ := h
      have := ih ds b1 b2 (fun hm => h1 (List.mem_cons_of_mem _ hm))
        (fun hm => h2 (List.mem_cons_of_mem _ hm)) h
      exact ⟨by rw [this.1], this.2⟩

/-- No valid aggregation-function name contains an underscore. -/
theorem validAggs_no_underscore (f : String) (hf : f ∈ validAggs) :
    '_' ∉ f.data := by
  fin_cases hf <;> decide

/-- The generated name `{column}_{func}` determines both the column and the
function, as long as both function names are valid: distinct (metric,
function) pairs can never collide. -/
theorem colName_inj (c1 f1 c2 f2 : String) (h1 : f1 ∈ validAggs)
    (h2 : f2 ∈ validAggs) (h : c1 ++ "_" ++ f1 = c2 ++ "_" ++ f2) :
    c1 = c2 ∧ f1 = f2 := by
  have hd : c1.data ++ '_' :: f1.data = c2.data ++ '_' :: f2.data := by
    have := congrArg String.data h
    simpa [String.data_append] using this
  have hr : f1.data.reverse ++ '_' :: c1.data.reverse =
      f2.data.reverse ++ '_' :: c2.data.reverse := by
    have := congrArg List.reverse hd
    simpa [List.reverse_append] using this
  have hs := sep_split_unique '_' _ _ _ _
    (by simpa using validAggs_no_underscore f1 h1)
    (by simpa using validAggs_no_underscore f2 h2) hr
  constructor
  · apply String.ext
    have := congrArg List.reverse hs.2
    simpa using this
  · apply String.ext
    have := congrArg List.reverse hs.1
    simpa using this

/-! ### Claim theorems: column naming -/

/-- C9 (confirmed): `generate_column_names(["region"], {"sale_amount":
["sum","mean"]})` is `["region", "sale_amount_sum", "sale_amount_mean"]`, and
`generate_column_names(["region"], {"sale_amount": "sum"})` is
`["region", "sale_amount_sum"]` with no trailing separator. -/
theorem generate_column_names_examples :
    generate_column_names ["region"] [("sale_amount", .many ["sum", "mean"])] =
      ["region", "sale_amount_sum", "sale_amount_mean"] ∧
    generate_column_names ["region"] [("sale_amount", .single "sum")] =
      ["region", "sale_amount_sum"] := by
  decide

/-- C2 (counterexample): with exactly one requested aggregation the generated
column is `sale_amount_sum`, not the bare metric name `sale_amount`. -/
theorem generate_column_names_single_not_bare :
    generate_column_names ["region"] [("sale_amount", .single "sum")] =
      ["region", "sale_amount_sum"] ∧
    generate_column_names ["region"] [("sale_amount", .single "sum")] ≠
      ["region", "sale_amount"] := by
  decide

/-- C2 (amended): for a metric with exactly one requested aggregation function
(a non-list metrics entry) the generated column name is `{metric}_{function}`,
never the bare metric name; the `rstrip("_")` pass only strips trailing
underscores, which no valid function name produces. -/
theorem generate_column_names_single_keeps_suffix (dims : List String)
    (c f : String) (hf : f ∈ validAggs) :
    generate_column_names dims [(c, .single f)] =
      dims.map rstripUnderscore ++ [c ++ "_" ++ f] := by
  unfold generate_column_names metricPairs aggList
  simp [rstripUnderscore_colName c f hf]

/-- Witness for C2's amended theorem at `dims = ["region"]`,
`metric = sale_amount`, `function = sum`. -/
theorem generate_column_names_single_keeps_suffix_witness :
    "sum" ∈ validAggs ∧
    generate_column_names ["region"] [("sale_amount", .single "sum")] =
      ["region"].map rstripUnderscore ++ ["sale_amount" ++ "_" ++ "sum"] :=
  ⟨by decide,
   generate_column_names_single_keeps_suffix ["region"] "sale_amount" "sum"
     (by decide)⟩

/-- C4 (confirmed): whenever two distinct (metric, function) pairs of the
metrics argument generate the same column name, `create_olap_cube` fails with
an error instead of producing a cube: by `colName_inj`, such a collision
forces one of the two function names to be invalid, and the aggregation
raises on it (the other `except` branches also only ever raise). -/
theorem create_olap_cube_collision_errors (t : Table) (dims : List String)
    (metrics : List (String × AggSpec)) (p1 p2 : String × String)
    (hp1 : p1 ∈ metricPairs metrics) (hp2 : p2 ∈ metricPairs metrics)
    (hne : p1 ≠ p2) (hcol : p1.1 ++ "_" ++ p1.2 = p2.1 ++ "_" ++ p2.2) :
    ∃ e, create_olap_cube t dims metrics = .error e := by
  have hv : ¬ ((metricPairs metrics).all (fun p => validAggs.contains p.2) = true) := by
    intro hall
    rw [List.all_eq_true] at hall
    have h1 : p1.2 ∈ validAggs := by simpa using hall p1 hp1
    have h2 : p2.2 ∈ validAggs := by simpa using hall p2 hp2
    obtain ⟨hc, hf⟩ := colName_inj p1.1 p1.2 p2.1 p2.2 h1 h2 hcol
    exact hne (Prod.ext hc hf)
  have hvf : (metricPairs metrics).all (fun p => validAggs.contains p.2) = false :=
    Bool.eq_false_iff.mpr hv
  simp only [create_olap_cube, hvf, Bool.not_false, if_true]
  split
  · exact ⟨_, rfl⟩
  · split
    · exact ⟨_, rfl⟩
    · split
      · exact ⟨_, rfl⟩
      · exact ⟨_, rfl⟩

/-- Witness for C4 at a concrete collision: the pairs `("a_sum", "mean")` and
`("a", "sum_mean")` both generate the column name `a_sum_mean`. -/
theorem create_olap_cube_collision_errors_witness :
    ("a_sum", "mean") ∈
      metricPairs [("a_sum", .single "mean"), ("a", .single "sum_mean")] ∧
    ("a", "sum_mean") ∈
      metricPairs [("a_sum", .single "mean"), ("a", .single "sum_mean")] ∧
    (("a_sum", "mean") : String × String) ≠ ("a", "sum_mean") ∧
    "a_sum" ++ "_" ++ "mean" = "a" ++ "_" ++ "sum_mean" ∧
    ∃ e, create_olap_cube { cols := ["a", "a_sum"], rows := [] } []
      [("a_sum", .single "mean"), ("a", .single "sum_mean")] = .error e :=
  ⟨by decide, by decide, by decide, by decide,
   create_olap_cube_collision_errors { cols := ["a", "a_sum"], rows := [] } []
     [("a_sum", .single "mean"), ("a", .single "sum_mean")]
     ("a_sum", "mean") ("a", "sum_mean") (by decide) (by decide) (by decide)
     (by decide)⟩

/-- C3 (counterexample): the claim fails at the empty dimensions list, which
its stated preconditions (all named columns present, all aggregation names
valid) do not exclude: even on an empty input table, `create_olap_cube` with
`dims = []` raises (pandas `groupby([])` raises `ValueError: No group keys
passed!`, and the zero-group aggregate would break the length-checked column
rename) rather than returning a header-only table. -/
theorem create_olap_cube_empty_dims_errors :
    create_olap_cube { cols := ["region", "sale_amount"], rows := [] } []
      [("sale_amount", AggSpec.single "sum")] =
      .error "ValueError: no group keys passed" ∧
    (create_olap_cube { cols := ["region", "sale_amount"], rows := [] } []
      [("sale_amount", AggSpec.single "sum")]).toOption = none := by
  exact ⟨rfl, rfl⟩

/-- C3 (amended, proved): on an empty input table `create_olap_cube` does not
raise; it returns a zero-row cube whose header is `generate_column_names(dims,
metrics)` plus the final `sale_ids` column, for every non-empty dimensions
list and metrics argument satisfying the preconditions (all named columns
present, all aggregation-function names valid and unrepeated). -/
theorem create_olap_cube_empty_input (cols : List String) (dims : List String)
    (metrics : List (String × AggSpec)) (hdne : dims ≠ [])
    (h1 : dims.all (fun d => cols.contains d) = true)
    (h2 : metrics.all (fun m => cols.contains m.1) = true)
    (h3 : (metricPairs metrics).all (fun p => validAggs.contains p.2) = true)
    (h4 : aggsNodup metrics = true) :
    create_olap_cube { cols := cols, rows := [] } dims metrics =
      .ok { cols := generate_column_names dims metrics ++ ["sale_ids"],
            rows := [] } := by
  have e0 : dims.isEmpty = false := by
    cases dims with
    | nil => exact absurd rfl hdne
    | cons d ds => rfl
  have e1 : (!dims.all (fun d => cols.contains d)) = false := by rw [h1]; rfl
  have e2 : (!metrics.all (fun m => cols.contains m.1)) = false := by
    rw [h2]; rfl
  have e3 : (!(metricPairs metrics).all (fun p => validAggs.contains p.2)) =
      false := by rw [h3]; rfl
  have e4 : (!aggsNodup metrics) = false := by rw [h4]; rfl
  simp only [create_olap_cube, e0, e1, e2, e3, e4, Bool.false_eq_true,
    if_false]
  simp [groupPartition, groupPartitionAux]

/-- Witness for C3's amended theorem at `dims = ["region"]`,
`metrics = {"sale_amount": ["sum","mean"]}`. -/
theorem create_olap_cube_empty_input_witness :
    ((["region"] : List String) ≠ []) ∧
    (["region"].all (fun d => ["region", "sale_amount"].contains d) = true) ∧
    ([("sale_amount", AggSpec.many ["sum", "mean"])].all
      (fun m => ["region", "sale_amount"].contains m.1) = true) ∧
    ((metricPairs [("sale_amount", AggSpec.many ["sum", "mean"])]).all
      (fun p => validAggs.contains p.2) = true) ∧
    (aggsNodup [("sale_amount", AggSpec.many ["sum", "mean"])] = true) ∧
    create_olap_cube { cols := ["region", "sale_amount"], rows := [] }
      ["region"] [("sale_amount", AggSpec.many ["sum", "mean"])] =
      .ok { cols := ["region", "sale_amount_sum", "sale_amount_mean",
                     "sale_ids"], rows := [] } := by
  refine ⟨by decide, by decide, by decide, by decide, by decide, ?_⟩
  rw [create_olap_cube_empty_input _ _ _ (by decide) (by decide) (by decide)
    (by decide) (by decide)]
  rfl

/-! ### Properties of the grouping step -/

/-- The two filter predicates used by `groupPartitionAux` are complementary. -/
theorem filter_ne_eq_not {κ ρ : Type} [DecidableEq κ] (k : κ)
    (l : List (κ × ρ)) :
    l.filter (fun p => ¬ p.1 = k) =
      l.filter (fun p => !(decide (p.1 = k))) := by
  simp

/-- Concatenating the groups of `groupPartitionAux` gives back the grouped
rows, up to permutation: on an adequately fuelled run, grouping loses no row
and duplicates none. -/
theorem groupPartitionAux_flat_perm {κ ρ : Type} [DecidableEq κ] :
    ∀ (fuel : Nat) (l : List (κ × ρ)), l.length ≤ fuel →
      ((groupPartitionAux fuel l).flatMap (fun g => g.2)).Perm
        (l.map (fun p => p.2)) := by
  intro fuel
  induction fuel with
  | zero =>
    intro l hl
    have : l = [] := List.eq_nil_of_length_eq_zero (Nat.le_zero.mp hl)
    subst this
    simp [groupPartitionAux]
  | succ fuel ih =>
    intro l hl
    cases l with
    | nil => simp [groupPartitionAux]
    | cons p rest =>
      obtain ⟨k, r⟩ := p
      have hlen : (rest.filter (fun p => ¬ p.1 = k)).length ≤ fuel :=
        le_trans (List.length_filter_le _ _)
          (Nat.succ_le_succ_iff.mp (by simpa using hl))
      have ihp := ih _ hlen
      have hfil :
          ((rest.filter (fun p => decide (p.1 = k))).map (fun p => p.2) ++
            (rest.filter (fun p => ¬ p.1 = k)).map (fun p => p.2)).Perm
          (rest.map (fun p => p.2)) := by
        rw [filter_ne_eq_not, ← List.map_append]
        exact (List.filter_append_perm (fun p => decide (p.1 = k)) rest).map _
      simp only [groupPartitionAux, List.flatMap_cons, List.map_cons,
        List.cons_append]
      exact ((ihp.append_left _).trans hfil).cons r

/-- Every key of a `groupPartitionAux` bucket is a key of the input list. -/
theorem groupPartitionAux_keys_sub {κ ρ : Type} [DecidableEq κ] :
    ∀ (fuel : Nat) (l : List (κ × ρ)) (k' : κ),
      k' ∈ (groupPartitionAux fuel l).map (fun g => g.1) →
      k' ∈ l.map (fun p => p.1) := by
  intro fuel
  induction fuel with
  | zero =>
    intro l k' h
    cases l with
    | nil => simp [groupPartitionAux] at h
    | cons p rest => simp [groupPartitionAux] at h
  | succ fuel ih =>
    intro l k' h
    cases l with
    | nil => simp [groupPartitionAux] at h
    | cons p rest =>
      obtain ⟨k, r⟩ := p
      simp only [groupPartitionAux, List.map_cons, List.mem_cons] at h
      rcases h with h | h
      · simp [h]
      · have := ih _ k' h
        simp only [List.map_cons, List.mem_cons]
        right
        rcases List.mem_map.mp this with ⟨q, hq, hq2⟩
        exact hq2 ▸ List.mem_map_of_mem _ (List.mem_of_mem_filter hq)

/-- The bucket keys produced by `groupPartitionAux` are pairwise distinct:
one bucket per distinct key. -/
theorem groupPartitionAux_keys_nodup {κ ρ : Type} [DecidableEq κ] :
    ∀ (fuel : Nat) (l : List (κ × ρ)),
      ((groupPartitionAux fuel l).map (fun g => g.1)).Nodup := by
  intro fuel
  induction fuel with
  | zero =>
    intro l
    cases l <;> simp [groupPartitionAux]
  | succ fuel ih =>
    intro l
    cases l with
    | nil => simp [groupPartitionAux]
    | cons p rest =>
      obtain ⟨k, r⟩ := p
      simp only [groupPartitionAux, List.map_cons, List.nodup_cons]
      refine ⟨fun hmem => ?_, ih _⟩
      have := groupPartitionAux_keys_sub fuel _ k hmem
      rcases List.mem_map.mp this with ⟨q, hq, hq2⟩
      have := List.of_mem_filter hq
      simp [hq2] at this

/-- A key appears among the buckets exactly when it appears in the input. -/
theorem groupPartitionAux_keys_iff {κ ρ : Type} [DecidableEq κ] :
    ∀ (fuel : Nat) (l : List (κ × ρ)), l.length ≤ fuel → ∀ (k' : κ),
      (k' ∈ (groupPartitionAux fuel l).map (fun g => g.1) ↔
        k' ∈ l.map (fun p => p.1)) := by
  intro fuel
  induction fuel with
  | zero =>
    intro l hl k'
    have : l = [] := List.eq_nil_of_length_eq_zero (Nat.le_zero.mp hl)
    subst this
    simp [groupPartitionAux]
  | succ fuel ih =>
    intro l hl k'
    cases l with
    | nil => simp [groupPartitionAux]
    | cons p rest =>
      obtain ⟨k, r⟩ := p
      have hlen : (rest.filter (fun p => ¬ p.1 = k)).length ≤ fuel :=
        le_trans (List.length_filter_le _ _)
          (Nat.succ_le_succ_iff.mp (by simpa using hl))
      constructor
      · exact fun h => groupPartitionAux_keys_sub _ _ _ h
      · intro h
        simp only [List.map_cons, List.mem_cons] at h
        simp only [groupPartitionAux, List.map_cons, List.mem_cons]
        rcases h with h | h
        · exact Or.inl h
        · by_cases hk : k' = k
          · exact Or.inl hk
          · right
            rcases List.mem_map.mp h with ⟨q, hq, hq2⟩
            refine (ih _ hlen k').mpr ?_
            refine List.mem_map.mpr ⟨q, ?_, hq2⟩
            exact List.mem_filter.mpr ⟨hq, by simp [hq2, hk]⟩

/-- When every row has a non-null group key, the keyed list projects back onto
the row list itself. -/
theorem keyed_map_snd (cols dims : List String) (rows : List SaleRow)
    (hnn : ∀ r ∈ rows, ∃ k, rowKey cols dims r = some k) :
    ((rows.filterMap
      (fun r => (rowKey cols dims r).map (fun k => (k, r)))).map
        (fun p => p.2)) = rows := by
  induction rows with
  | nil => simp
  | cons r rest ih =>
    obtain ⟨k, hk⟩ := hnn r (List.mem_cons_self r rest)
    simp only [List.filterMap_cons, hk, Option.map_some', List.map_cons]
    rw [ih (fun x hx => hnn x (List.mem_cons_of_mem _ hx))]

/-- A key occurs in the keyed list exactly when some input row carries it. -/
theorem keyed_map_fst_mem (cols dims : List String) (rows : List SaleRow)
    (k : List Value) :
    (k ∈ (rows.filterMap
      (fun r => (rowKey cols dims r).map (fun k' => (k', r)))).map
        (fun p => p.1)) ↔
    ∃ r ∈ rows, rowKey cols dims r = some k := by
  simp only [List.mem_map, List.mem_filterMap, Option.map_eq_some']
  constructor
  · rintro ⟨p, ⟨r, hr, k', hk', hpk⟩, rfl⟩
    exact ⟨r, hr, by rw [hk']; rw [← hpk]⟩
  · rintro ⟨r, hr, hk⟩
    exact ⟨(k, r), ⟨r, hr, k, hk, rfl⟩, rfl⟩

/-- Every member of a `groupPartitionAux` bucket is a value of the input list. -/
theorem groupPartitionAux_mem_sub {κ ρ : Type} [DecidableEq κ] :
    ∀ (fuel : Nat) (l : List (κ × ρ)) (g : κ × List ρ),
      g ∈ groupPartitionAux fuel l → ∀ x ∈ g.2, ∃ p ∈ l, p.2 = x := by
  intro fuel
  induction fuel with
  | zero =>
    intro l g hg
    cases l with
    | nil => simp [groupPartitionAux] at hg
    | cons p rest => simp [groupPartitionAux] at hg
  | succ fuel ih =>
    intro l g hg x hx
    cases l with
    | nil => simp [groupPartitionAux] at hg
    | cons p rest =>
      obtain ⟨k, r⟩ := p
      simp only [groupPartitionAux, List.mem_cons] at hg
      rcases hg with hg | hg
      · subst hg
        simp only [List.mem_cons, List.mem_map] at hx
        rcases hx with rfl | ⟨q, hq, hq2⟩
        · exact ⟨(k, x), List.mem_cons_self _ _, rfl⟩
        · exact ⟨q, List.mem_cons_of_mem _ (List.mem_of_mem_filter hq), hq2⟩
      · obtain ⟨q, hq, hq2⟩ := ih _ g hg x hx
        exact ⟨q, List.mem_cons_of_mem _ (List.mem_of_mem_filter hq), hq2⟩

/-- Every sale identifier in any row of a successfully built cube originates
from an input row whose group key is non-null. -/
theorem create_olap_cube_ids_sub (t : Table) (dims : List String)
    (metrics : List (String × AggSpec)) (cube : Cube)
    (hOk : create_olap_cube t dims metrics = .ok cube)
    (cr : CubeRow) (hcr : cr ∈ cube.rows) (i : Int) (hi : i ∈ cr.sale_ids) :
    ∃ r ∈ t.rows, (∃ k, rowKey t.cols dims r = some k) ∧ r.sale_id = i := by
  simp only [create_olap_cube] at hOk
  split at hOk
  · exact absurd hOk (by simp)
  split at hOk
  · exact absurd hOk (by simp)
  split at hOk
  · exact absurd hOk (by simp)
  split at hOk
  · exact absurd hOk (by simp)
  split at hOk
  · exact absurd hOk (by simp)
  rw [Except.ok.injEq] at hOk
  subst hOk
  simp only [List.mem_map] at hcr
  obtain ⟨g, hg, rfl⟩ := hcr
  simp only [List.mem_map] at hi
  obtain ⟨row, hrow, hid⟩ := hi
  obtain ⟨p, hp, hp2⟩ :=
    groupPartitionAux_mem_sub _ _ g hg row hrow
  rw [List.mem_filterMap] at hp
  obtain ⟨r, hr, hfr⟩ := hp
  rw [Option.map_eq_some'] at hfr
  obtain ⟨k, hk, hpr⟩ := hfr
  refine ⟨r, hr, ⟨k, hk⟩, ?_⟩
  rw [show r = p.2 from by rw [← hpr], hp2, hid]

/-- C1 (amended, proved): for a non-empty input table whose rows all have
non-null values in every dimension column, and a non-empty dimensions list
and metrics satisfying the preconditions, `create_olap_cube` succeeds and
returns one output row per distinct group key present in the input (keys
pairwise distinct, a key present iff some input row carries it), and the
concatenation of the `sale_ids` lists over all output rows is a permutation
of the input sale-identifier list — no duplicates and no omissions. -/
theorem create_olap_cube_partitions_sale_ids (t : Table) (dims : List String)
    (metrics : List (String × AggSpec)) (hdne : dims ≠ [])
    (h1 : dims.all (fun d => t.cols.contains d) = true)
    (h2 : metrics.all (fun m => t.cols.contains m.1) = true)
    (h3 : (metricPairs metrics).all (fun p => validAggs.contains p.2) = true)
    (h4 : aggsNodup metrics = true)
    (hnn : ∀ r ∈ t.rows, ∃ k, rowKey t.cols dims r = some k)
    (hne : t.rows ≠ []) :
    ∃ cube, create_olap_cube t dims metrics = .ok cube ∧
      cube.rows ≠ [] ∧
      (cube.rows.map (fun cr => cr.key)).Nodup ∧
      (∀ k, k ∈ cube.rows.map (fun cr => cr.key) ↔
        ∃ r ∈ t.rows, rowKey t.cols dims r = some k) ∧
      (cube.rows.flatMap (fun cr => cr.sale_ids)).Perm
        (t.rows.map (fun r => r.sale_id)) := by
  have e0 : dims.isEmpty = false := by
    cases dims with
    | nil => exact absurd rfl hdne
    | cons d ds => rfl
  have e1 : (!dims.all (fun d => t.cols.contains d)) = false := by rw [h1]; rfl
  have e2 : (!metrics.all (fun m => t.cols.contains m.1)) = false := by
    rw [h2]; rfl
  have e3 : (!(metricPairs metrics).all (fun p => validAggs.contains p.2)) =
      false := by rw [h3]; rfl
  have e4 : (!aggsNodup metrics) = false := by rw [h4]; rfl
  have hC : create_olap_cube t dims metrics = .ok {
      cols := generate_column_names dims metrics ++ ["sale_ids"],
      rows := (groupPartition (t.rows.filterMap
        (fun r => (rowKey t.cols dims r).map (fun k => (k, r))))).map fun g =>
          { key := g.1,
            aggs := (metricPairs metrics).map
              (fun p => applyAgg p.2 (g.2.map (fun r => getCellD t.cols r p.1))),
            sale_ids := g.2.map (fun r => r.sale_id) } } := by
    simp only [create_olap_cube, e0, e1, e2, e3, e4, Bool.false_eq_true,
      if_false]
  refine ⟨_, hC, ?_, ?_, ?_, ?_⟩
  · intro h0
    have hval : ((t.rows.filterMap
        (fun r => (rowKey t.cols dims r).map (fun k => (k, r)))).map
          (fun p => p.2)) = t.rows := keyed_map_snd _ _ _ hnn
    have hperm := groupPartitionAux_flat_perm
      (t.rows.filterMap
        (fun r => (rowKey t.cols dims r).map (fun k => (k, r)))).length
      (t.rows.filterMap
        (fun r => (rowKey t.cols dims r).map (fun k => (k, r)))) le_rfl
    rw [List.map_eq_nil_iff] at h0
    rw [show groupPartition (t.rows.filterMap
        (fun r => (rowKey t.cols dims r).map (fun k => (k, r)))) =
      groupPartitionAux (t.rows.filterMap
        (fun r => (rowKey t.cols dims r).map (fun k => (k, r)))).length
        (t.rows.filterMap
          (fun r => (rowKey t.cols dims r).map (fun k => (k, r)))) from rfl]
      at h0
    rw [h0] at hperm
    simp only [List.flatMap_nil] at hperm
    have := hperm.symm.eq_nil
    rw [hval] at this
    exact hne this
  · rw [List.map_map]
    exact groupPartitionAux_keys_nodup _ _
  · intro k
    rw [List.map_map]
    exact (groupPartitionAux_keys_iff _ _ le_rfl k).trans
      (keyed_map_fst_mem _ _ _ k)
  · rw [List.flatMap_map]
    have hperm := (groupPartitionAux_flat_perm
      (t.rows.filterMap
        (fun r => (rowKey t.cols dims r).map (fun k => (k, r)))).length
      (t.rows.filterMap
        (fun r => (rowKey t.cols dims r).map (fun k => (k, r)))) le_rfl).map
      (fun r => r.sale_id)
    rw [List.map_flatMap] at hperm
    rw [show ((t.rows.filterMap
        (fun r => (rowKey t.cols dims r).map (fun k => (k, r)))).map
          (fun p => p.2)) = t.rows from keyed_map_snd _ _ _ hnn] at hperm
    exact hperm

/-- Witness for C1's amended theorem on a concrete two-region table. -/
theorem create_olap_cube_partitions_sale_ids_witness :
    ((["region"] : List String) ≠ []) ∧
    ((["region"].all (fun d =>
      ["region", "sale_amount"].contains d)) = true) ∧
    (([("sale_amount", AggSpec.single "sum")].all (fun m =>
      ["region", "sale_amount"].contains m.1)) = true) ∧
    (((metricPairs [("sale_amount", AggSpec.single "sum")]).all (fun p =>
      validAggs.contains p.2)) = true) ∧
    (aggsNodup [("sale_amount", AggSpec.single "sum")] = true) ∧
    (∀ r ∈ [(⟨1, [.str "East", .num 10]⟩ : SaleRow),
            ⟨2, [.str "West", .null]⟩],
      ∃ k, rowKey ["region", "sale_amount"] ["region"] r = some k) ∧
    ([(⟨1, [.str "East", .num 10]⟩ : SaleRow),
      ⟨2, [.str "West", .null]⟩] ≠ []) ∧
    ∃ cube,
      create_olap_cube
        { cols := ["region", "sale_amount"],
          rows := [⟨1, [.str "East", .num 10]⟩, ⟨2, [.str "West", .null]⟩] }
        ["region"] [("sale_amount", AggSpec.single "sum")] = .ok cube ∧
      cube.rows ≠ [] ∧
      (cube.rows.map (fun cr => cr.key)).Nodup ∧
      (∀ k, k ∈ cube.rows.map (fun cr => cr.key) ↔
        ∃ r ∈ [(⟨1, [.str "East", .num 10]⟩ : SaleRow),
               ⟨2, [.str "West", .null]⟩],
            rowKey ["region", "sale_amount"] ["region"] r = some k) ∧
      (cube.rows.flatMap (fun cr => cr.sale_ids)).Perm
        ([(⟨1, [.str "East", .num 10]⟩ : SaleRow),
          ⟨2, [.str "West", .null]⟩].map (fun r => r.sale_id)) := by
  refine ⟨by decide, by decide, by decide, by decide, by decide, ?_,
    by decide, ?_⟩
  · intro r hr
    rcases List.mem_cons.mp hr with rfl | hr
    · exact ⟨[.str "East"], rfl⟩
    rcases List.mem_cons.mp hr with rfl | hr
    · exact ⟨[.str "West"], rfl⟩
    · simp at hr
  · exact create_olap_cube_partitions_sale_ids
      { cols := ["region", "sale_amount"],
        rows := [⟨1, [.str "East", .num 10]⟩, ⟨2, [.str "West", .null]⟩] }
      ["region"] [("sale_amount", AggSpec.single "sum")]
      (by decide) (by decide) (by decide) (by decide) (by decide)
      (by
        intro r hr
        rcases List.mem_cons.mp hr with rfl | hr
        · exact ⟨[.str "East"], rfl⟩
        rcases List.mem_cons.mp hr with rfl | hr
        · exact ⟨[.str "West"], rfl⟩
        · simp at hr)
      (by decide)

/-- C1 (counterexample): the claim as stated fails on a non-empty table whose
single row has a null `region`: all preconditions named by the claim hold
(columns present, aggregation names valid), yet the cube comes back with zero
rows, so sale identifier 1 appears in no output row — the union of `sale_ids`
omits it, and the (null) dimension combination present in the input has no
output row. -/
theorem create_olap_cube_null_dimension_omits_sale_id :
    (create_olap_cube
      { cols := ["region", "sale_amount"],
        rows := [⟨1, [.null, .num 10]⟩] }
      ["region"] [("sale_amount", AggSpec.single "sum")]).toOption =
      some { cols := ["region", "sale_amount_sum", "sale_ids"], rows := [] } ∧
    ([(⟨1, [.null, .num 10]⟩ : SaleRow)].map (fun r => r.sale_id)) = [1] := by
  decide

/-- C10 (confirmed): a row whose group key contains a null dimension value is
silently dropped: `create_olap_cube` returns exactly what it returns on the
table with that row removed (so the row contributes to no group, no aggregate
and no `sale_ids` list), and — when its sale identifier does not also occur
in another row — that identifier appears in no output row's `sale_ids`. -/
theorem create_olap_cube_drops_null_dimension_rows (cols : List String)
    (pre post : List SaleRow) (r : SaleRow) (dims : List String)
    (metrics : List (String × AggSpec))
    (hk : rowKey cols dims r = none) :
    create_olap_cube { cols := cols, rows := pre ++ r :: post } dims metrics =
      create_olap_cube { cols := cols, rows := pre ++ post } dims metrics ∧
    (r.sale_id ∉ (pre ++ post).map (fun x => x.sale_id) →
      ∀ cube, create_olap_cube { cols := cols, rows := pre ++ r :: post }
          dims metrics = .ok cube →
        ∀ cr ∈ cube.rows, r.sale_id ∉ cr.sale_ids) := by
  constructor
  · simp only [create_olap_cube, List.filterMap_append, List.filterMap_cons,
      hk, Option.map_none']
  · intro hid cube hOk cr hcr hmem
    obtain ⟨row, hrow, ⟨k, hkrow⟩, hidrow⟩ :=
      create_olap_cube_ids_sub _ _ _ _ hOk cr hcr r.sale_id hmem
    rcases List.mem_append.mp hrow with h | h
    · exact hid (List.mem_map.mpr ⟨row, List.mem_append.mpr (Or.inl h), hidrow⟩)
    · rcases List.mem_cons.mp h with rfl | h
      · rw [hk] at hkrow
        exact Option.noConfusion hkrow
      · exact hid
          (List.mem_map.mpr ⟨row, List.mem_append.mpr (Or.inr h), hidrow⟩)

/-- Witness for C10 on a concrete table whose middle row has a null region. -/
theorem create_olap_cube_drops_null_dimension_rows_witness :
    rowKey ["region", "sale_amount"] ["region"]
      (⟨2, [.null, .num 5]⟩ : SaleRow) = none ∧
    (create_olap_cube
      { cols := ["region", "sale_amount"],
        rows := [⟨1, [.str "East", .num 10]⟩] ++
          (⟨2, [.null, .num 5]⟩ : SaleRow) :: [⟨3, [.str "West", .num 7]⟩] }
      ["region"] [("sale_amount", AggSpec.single "sum")] =
      create_olap_cube
        { cols := ["region", "sale_amount"],
          rows := [⟨1, [.str "East", .num 10]⟩] ++ [⟨3, [.str "West", .num 7]⟩] }
        ["region"] [("sale_amount", AggSpec.single "sum")] ∧
    ((⟨2, [.null, .num 5]⟩ : SaleRow).sale_id ∉
        ([(⟨1, [.str "East", .num 10]⟩ : SaleRow)] ++
          [(⟨3, [.str "West", .num 7]⟩ : SaleRow)]).map (fun x => x.sale_id) →
      ∀ cube, create_olap_cube
          { cols := ["region", "sale_amount"],
            rows := [⟨1, [.str "East", .num 10]⟩] ++
              (⟨2, [.null, .num 5]⟩ : SaleRow) ::
                [⟨3, [.str "West", .num 7]⟩] }
          ["region"] [("sale_amount", AggSpec.single "sum")] = .ok cube →
        ∀ cr ∈ cube.rows,
          (⟨2, [.null, .num 5]⟩ : SaleRow).sale_id ∉ cr.sale_ids)) :=
  ⟨by decide,
   create_olap_cube_drops_null_dimension_rows ["region", "sale_amount"]
     [⟨1, [.str "East", .num 10]⟩] [⟨3, [.str "West", .num 7]⟩]
     ⟨2, [.null, .num 5]⟩ ["region"] [("sale_amount", AggSpec.single "sum")]
     (by decide)⟩

/-! ### Embedding of `ingest_sales_data_from_dw` (connection lifecycle) -/

/-- Observable connection events of the data-warehouse reader. -/
inductive ConnEvent where
  | connOpen : ConnEvent
  | queryRun : ConnEvent
  | connClose : ConnEvent
deriving DecidableEq, Repr

/-- Embedding of `ingest_sales_data_from_dw` as its trace of connection
events plus its outcome.  The body is `try: conn = connect(...); df =
read_sql_query(...); conn.close(); return df` with an `except` clause that
logs and re-raises: when the join query raises, execution jumps straight from
the query to the handler, so `conn.close()` is skipped and the error
propagates. -/
def ingest_sales_data_from_dw (querySucceeds : Bool) :
    Except String Unit × List ConnEvent :=
  if querySucceeds then
    (.ok (), [.connOpen, .queryRun, .connClose])
  else
    (.error "Error loading sale table data from data warehouse",
     [.connOpen, .queryRun])

/-- C5 (code bug): on the execution path where the join query raises, the
function opens the connection, propagates the error, and never emits
`connClose` — the connection is not released on the exception exit path
(there is no `finally`/`with`), contradicting the spec's requirement that the
connection be closed on every exit path. -/
theorem ingest_sales_data_from_dw_leaks_connection_on_query_error :
    ConnEvent.connOpen ∈ (ingest_sales_data_from_dw false).2 ∧
    (∃ e, (ingest_sales_data_from_dw false).1 = .error e) ∧
    ConnEvent.connClose ∉ (ingest_sales_data_from_dw false).2 := by
  refine ⟨by decide, ⟨_, rfl⟩, by decide⟩

/-! ### Embedding of `revenue_by_region.analyze_top_region` -/

/-- The two columns of the loaded cube that `analyze_top_region` reads. -/
structure CubeRegionRow where
  region : String
  sale_amount_sum : Rat
deriving DecidableEq, Repr

/-- One row of the analyzer's output: a region and its summed total. -/
structure RegionTotal where
  region : String
  TotalSales : Rat
deriving DecidableEq, Repr

/-- The comparison used by `sort_values(["region", "TotalSales"],
ascending=[True, False])`: region ascending, then total descending. -/
def regionLe (a b : RegionTotal) : Bool :=
  decide (a.region < b.region) ||
    (a.region = b.region && decide (b.TotalSales ≤ a.TotalSales))

/-- Insert into a sorted list (stable: keeps existing equal keys first). -/
def insertBy {α : Type} (le : α → α → Bool) (a : α) : List α → List α
  | [] => [a]
  | b :: bs => if le a b then a :: b :: bs else b :: insertBy le a bs

/-- Insertion sort realizing `sort_values` (any correct sort is observably
identical here: the comparison below is total and antisymmetric on the
analyzer's intermediate table, whose regions are pairwise distinct). -/
def sortBy {α : Type} (le : α → α → Bool) : List α → List α
  | [] => []
  | a :: as => insertBy le a (sortBy le as)

/-- Keep the first row of each region group in table order
(`.groupby("region").head(1)` on an already sorted frame). -/
def headPerGroupAux (seen : List String) : List RegionTotal → List RegionTotal
  | [] => []
  | r :: rs =>
      if seen.contains r.region then headPerGroupAux seen rs
      else r :: headPerGroupAux (r.region :: seen) rs

/-- `.groupby("region").head(1)` applied to the sorted per-region table. -/
def headPerGroup (l : List RegionTotal) : List RegionTotal :=
  headPerGroupAux [] l

/-- Embedding of `analyze_top_region`: group by region summing
`sale_amount_sum` into `TotalSales`, sort by (region ascending, TotalSales
descending), then keep the head row of each region group. -/
def analyze_top_region (cube : List CubeRegionRow) : List RegionTotal :=
  let grouped :=
    (groupPartition (cube.map (fun r => (r.region, r.sale_amount_sum)))).map
      (fun g => { region := g.1, TotalSales := g.2.sum })
  headPerGroup (sortBy regionLe grouped)

/-- The simpler pipeline the spec describes: group by region, sum
`sale_amount_sum` into `TotalSales`, and sort — with no per-group head-1
selection. -/
def spec_top_region_pipeline (cube : List CubeRegionRow) : List RegionTotal :=
  sortBy regionLe
    ((groupPartition (cube.map (fun r => (r.region, r.sale_amount_sum)))).map
      (fun g => { region := g.1, TotalSales := g.2.sum }))

/-- `insertBy` permutes insertion: the result is the element consed on. -/
theorem insertBy_perm {α : Type} (le : α → α → Bool) (a : α) :
    ∀ l : List α, (insertBy le a l).Perm (a :: l) := by
  intro l
  induction l with
  | nil => exact List.Perm.refl _
  | cons b bs ih =>
    by_cases h : le a b = true
    · simp [insertBy, h]
    · simp only [insertBy, h, if_false]
      exact (ih.cons b).trans (List.Perm.swap a b bs)

/-- Insertion sort permutes its input. -/
theorem sortBy_perm {α : Type} (le : α → α → Bool) :
    ∀ l : List α, (sortBy le l).Perm l := by
  intro l
  induction l with
  | nil => exact List.Perm.refl _
  | cons a as ih =>
    exact (insertBy_perm le a (sortBy le as)).trans (ih.cons a)

/-- Inserting into a list sorted by a total transitive comparison keeps it
sorted. -/
theorem insertBy_pairwise {α : Type} (le : α → α → Bool)
    (htot : ∀ a b, le a b = true ∨ le b a = true)
    (htr : ∀ a b c, le a b = true → le b c = true → le a c = true) (a : α) :
    ∀ l : List α, l.Pairwise (fun x y => le x y = true) →
      (insertBy le a l).Pairwise (fun x y => le x y = true) := by
  intro l
  induction l with
  | nil =>
    intro _
    simp [insertBy]
  | cons b bs ih =>
    intro hp
    rw [List.pairwise_cons] at hp
    obtain ⟨hb, hbs⟩ := hp
    by_cases h : le a b = true
    · simp only [insertBy, h, if_true]
      rw [List.pairwise_cons]
      refine ⟨?_, List.pairwise_cons.mpr ⟨hb, hbs⟩⟩
      intro x hx
      rcases List.mem_cons.mp hx with rfl | hx
      · exact h
      · exact htr a b x h (hb x hx)
    · simp only [insertBy, h, Bool.false_eq_true, if_false]
      rw [List.pairwise_cons]
      constructor
      · intro x hx
        rcases List.mem_cons.mp ((insertBy_perm le a bs).mem_iff.mp hx) with
          rfl | hx2
        · rcases htot x b with h1 | h2
          · exact absurd h1 h
          · exact h2
        · exact hb x hx2
      · exact ih hbs

/-- Insertion sort sorts, for a total transitive comparison. -/
theorem sortBy_pairwise {α : Type} (le : α → α → Bool)
    (htot : ∀ a b, le a b = true ∨ le b a = true)
    (htr : ∀ a b c, le a b = true → le b c = true → le a c = true) :
    ∀ l : List α, (sortBy le l).Pairwise (fun x y => le x y = true) := by
  intro l
  induction l with
  | nil => simp [sortBy]
  | cons a as ih => exact insertBy_pairwise le htot htr a _ ih

/-- The analyzer's comparison is total. -/
theorem regionLe_total (a b : RegionTotal) :
    regionLe a b = true ∨ regionLe b a = true := by
  unfold regionLe
  rcases lt_trichotomy a.region b.region with h | h | h
  · left
    simp [h]
  · rcases le_total b.TotalSales a.TotalSales with h2 | h2
    · left
      simp [h, h2]
    · right
      simp [h, h2]
  · right
    simp [h]

/-- The analyzer's comparison is transitive. -/
theorem regionLe_trans (a b c : RegionTotal) (h1 : regionLe a b = true)
    (h2 : regionLe b c = true) : regionLe a c = true := by
  unfold regionLe at h1 h2 ⊢
  simp only [Bool.or_eq_true, Bool.and_eq_true, decide_eq_true_eq] at h1 h2 ⊢
  rcases h1 with h1 | ⟨h1e, h1le⟩ <;> rcases h2 with h2 | ⟨h2e, h2le⟩
  · exact Or.inl (lt_trans h1 h2)
  · exact Or.inl (h2e ▸ h1)
  · exact Or.inl (h1e ▸ h2)
  · exact Or.inr ⟨h1e.trans h2e, le_trans h2le h1le⟩

/-- On a table whose regions are pairwise distinct, the per-region head-1
selection keeps every row (each group is a singleton). -/
theorem headPerGroupAux_eq_self :
    ∀ (l : List RegionTotal) (seen : List String),
      (∀ r ∈ l, r.region ∉ seen) →
      (l.map (fun r => r.region)).Nodup →
      headPerGroupAux seen l = l := by
  intro l
  induction l with
  | nil =>
    intro seen _ _
    rfl
  | cons r rs ih =>
    intro seen hseen hnd
    have h1 : seen.contains r.region = false := by
      simpa using hseen r (List.mem_cons_self r rs)
    simp only [headPerGroupAux, h1, Bool.false_eq_true, if_false]
    rw [List.map_cons, List.nodup_cons] at hnd
    congr 1
    refine ih (r.region :: seen) ?_ hnd.2
    intro x hx hmem
    rcases List.mem_cons.mp hmem with hcase | hcase
    · exact hnd.1 (hcase ▸ List.mem_map_of_mem (fun r => r.region) hx)
    · exact hseen x (List.mem_cons_of_mem r hx) hcase

/-- `.groupby("region").head(1)` is the identity on a region-distinct table. -/
theorem headPerGroup_eq_self (l : List RegionTotal)
    (hnd : (l.map (fun r => r.region)).Nodup) : headPerGroup l = l :=
  headPerGroupAux_eq_self l [] (by simp) hnd

/-- The regions of the analyzer's sorted intermediate table are pairwise
distinct: grouping produced one row per region, and sorting permutes. -/
theorem analyze_sorted_regions_nodup (cube : List CubeRegionRow) :
    ((sortBy regionLe
      ((groupPartition (cube.map (fun r => (r.region, r.sale_amount_sum)))).map
        (fun g => ({ region := g.1, TotalSales := g.2.sum } : RegionTotal)))).map
      (fun r => r.region)).Nodup := by
  have hkeys :
      (((groupPartition (cube.map (fun r => (r.region, r.sale_amount_sum)))).map
        (fun g => ({ region := g.1, TotalSales := g.2.sum } : RegionTotal))).map
          (fun r => r.region)).Nodup := by
    rw [List.map_map]
    exact groupPartitionAux_keys_nodup _ _
  exact (((sortBy_perm regionLe _).map (fun r => r.region)).symm.nodup) hkeys

/-- C7 (confirmed): the per-region head-1 selection in `analyze_top_region`
is a no-op: the function computes exactly the simpler group-sum-sort pipeline,
because the grouped table already has one row per region, so every singleton
region group keeps its only row. -/
theorem analyze_top_region_head1_noop (cube : List CubeRegionRow) :
    analyze_top_region cube = spec_top_region_pipeline cube := by
  simp only [analyze_top_region, spec_top_region_pipeline]
  exact headPerGroup_eq_self _ (analyze_sorted_regions_nodup cube)

/-- C6 (amended): the output of `analyze_top_region` is sorted by region name
ascending (strictly, as regions are pairwise distinct after grouping) — not by
`TotalSales` descending; the `TotalSales` key only breaks ties between equal
regions, which cannot occur. -/
theorem analyze_top_region_sorted_by_region (cube : List CubeRegionRow) :
    (analyze_top_region cube).Pairwise (fun a b => a.region < b.region) := by
  simp only [analyze_top_region]
  rw [headPerGroup_eq_self _ (analyze_sorted_regions_nodup cube)]
  have hle := sortBy_pairwise regionLe regionLe_total regionLe_trans
    ((groupPartition (cube.map (fun r => (r.region, r.sale_amount_sum)))).map
      (fun g => ({ region := g.1, TotalSales := g.2.sum } : RegionTotal)))
  have hne : (sortBy regionLe
      ((groupPartition (cube.map (fun r => (r.region, r.sale_amount_sum)))).map
        (fun g => ({ region := g.1, TotalSales := g.2.sum } : RegionTotal)))).Pairwise
      (fun a b => a.region ≠ b.region) :=
    List.pairwise_map.mp (analyze_sorted_regions_nodup cube)
  refine (hle.and hne).imp ?_
  intro a b hab
  obtain ⟨h1, h2⟩ := hab
  unfold regionLe at h1
  simp only [Bool.or_eq_true, Bool.and_eq_true, decide_eq_true_eq] at h1
  rcases h1 with h1 | ⟨h1e, _⟩
  · exact h1
  · exact absurd h1e h2

/-- C6 (counterexample): on a cube with regions A (total 50) and B (total
100), the analyzer returns [A(50), B(100)] — region-ascending order — whose
consecutive totals are not descending: the claim that the output is sorted
descending by `TotalSales` fails. -/
theorem analyze_top_region_not_sorted_by_total :
    analyze_top_region
      [{ region := "A", sale_amount_sum := 50 },
       { region := "B", sale_amount_sum := 100 }] =
      [{ region := "A", TotalSales := 50 },
       { region := "B", TotalSales := 100 }] ∧
    ¬ List.Chain' (fun a b => b.TotalSales ≤ a.TotalSales)
      (analyze_top_region
        [{ region := "A", sale_amount_sum := 50 },
         { region := "B", sale_amount_sum := 100 }]) := by
  have hval : analyze_top_region
      [{ region := "A", sale_amount_sum := 50 },
       { region := "B", sale_amount_sum := 100 }] =
      [{ region := "A", TotalSales := 50 },
       { region := "B", TotalSales := 100 }] := by
    have hcmp : regionLe { region := "A", TotalSales := 50 }
        { region := "B", TotalSales := 100 } = true := by
      have : (("A" : String) < "B") := by
        simp
        decide
      simp [regionLe, this]
    simp [analyze_top_region, groupPartition, groupPartitionAux,
      headPerGroup, headPerGroupAux, sortBy, insertBy, hcmp]
  refine ⟨hval, ?_⟩
  rw [hval]
  intro hch
  rw [List.chain'_cons] at hch
  have : ¬ ((100 : Rat) ≤ 50) := by decide
  exact this hch.1

/-! ### Embedding of `write_cube_to_csv` / `load_olap_cube`

The CSV file is modelled at the cell-grid level: a header (the column names)
plus one textual cell per value.  The delimiter layer (comma joining with
minimal quoting of cells that contain the delimiter, and its inverse split) is
the CSV library's and is bijective on cell texts, so it is elided.  Numeric
cells are printed with an exact textual encoding and re-parsed exactly,
mirroring the exact repr/parse round-trip of the float type the Python code
stores; `read_csv`'s type inference is modelled per column: a column all of
whose non-empty cells parse as numbers is loaded numerically, anything else is
loaded as text, and empty cells load as missing (NaN). -/

/-- The decimal digit character for `n % 10`. -/
def digitChar (n : Nat) : Char := Char.ofNat (48 + n % 10)

/-- Is this a decimal digit character? -/
def isDigitChar (c : Char) : Bool :=
  decide (48 ≤ c.toNat) && decide (c.toNat ≤ 57)

/-- Fuel-indexed most-significant-first decimal digits of a natural number. -/
def natDigitsAux : Nat → Nat → List Char
  | 0, _ => []
  | fuel + 1, n =>
      if n < 10 then [digitChar n]
      else natDigitsAux fuel (n / 10) ++ [digitChar (n % 10)]

/-- The decimal digits of a natural number. -/
def natToChars (n : Nat) : List Char := natDigitsAux (n + 1) n

/-- Accumulating decimal parser: fails on the first non-digit. -/
def parseNatAux (acc : Nat) : List Char → Option Nat
  | [] => some acc
  | c :: cs =>
      if isDigitChar c then parseNatAux (acc * 10 + (c.toNat - 48)) cs
      else none

/-- Parse a non-empty all-digit character list as a natural number. -/
def parseNatChars (l : List Char) : Option Nat :=
  if l.isEmpty then none else parseNatAux 0 l

/-- Print an integer in decimal with an optional leading minus sign. -/
def intToChars (n : Int) : List Char :=
  if n < 0 then '-' :: natToChars n.natAbs else natToChars n.toNat

/-- Parse an optionally minus-signed decimal integer. -/
def parseIntChars : List Char → Option Int
  | [] => none
  | c :: cs =>
      if c = '-' then (parseNatChars cs).map (fun m => -(m : Int))
      else (parseNatChars (c :: cs)).map (fun m => (m : Int))

/-- Exact textual encoding of a rational: plain integer when the denominator
is 1, `num/den` otherwise. -/
def ratToChars (q : Rat) : List Char :=
  if q.den = 1 then intToChars q.num
  else intToChars q.num ++ '/' :: natToChars q.den

/-- Parse the exact rational encoding: integer part up to an optional slash,
then the denominator. -/
def parseRatChars (l : List Char) : Option Rat :=
  let a := l.takeWhile (fun c => ¬ c = '/')
  let b := l.dropWhile (fun c => ¬ c = '/')
  if b.isEmpty then (parseIntChars a).map (fun n => mkRat n 1)
  else
    (parseIntChars a).bind
      (fun n => (parseNatChars b.tail).map (fun d => mkRat n d))

/-- The cell text of one cube value: missing prints empty, strings print
themselves, numbers print their exact encoding. -/
def printValue : Value → String
  | .null => ""
  | .str s => s
  | .num q => ⟨ratToChars q⟩

/-- The characters of `", ".join(str(i) for i in ids)`. -/
def idsChars : List Int → List Char
  | [] => []
  | [i] => intToChars i
  | i :: is => intToChars i ++ ',' :: ' ' :: idsChars is

/-- The `str(list)` rendering `"[1, 2]"` used for the `sale_ids` column. -/
def printIds (ids : List Int) : String :=
  ⟨'[' :: (idsChars ids ++ [']'])⟩

/-- Embedding of `write_cube_to_csv`: header plus one textual cell per value,
with the `sale_ids` list serialized as its bracketed string rendering. -/
def write_cube_to_csv (cube : Cube) : List String × List (List String) :=
  (cube.cols,
   cube.rows.map
     (fun r => (r.key ++ r.aggs).map printValue ++ [printIds r.sale_ids]))

/-- A loaded data frame: column names and typed cell rows. -/
structure Frame where
  cols : List String
  rows : List (List Value)
deriving DecidableEq, Repr

/-- A cell text compatible with a numeric column: empty (NaN) or parseable. -/
def cellNumericOk (s : String) : Bool :=
  s = "" || (parseRatChars s.data).isSome

/-- `read_csv` type inference for column `j`: numeric when every cell of the
column is empty or parses as a number. -/
def colNumeric (grid : List (List String)) (j : Nat) : Bool :=
  grid.all (fun row => cellNumericOk (row.getD j ""))

/-- Load one cell: empty text is missing; in a numeric column a parseable
text becomes its number; anything else stays text. -/
def inferCell (numeric : Bool) (s : String) : Value :=
  if s = "" then .null
  else if numeric then
    match parseRatChars s.data with
    | some q => .num q
    | none => .str s
  else .str s

/-- Load the cells of one row, tracking the column index. -/
def inferRowAux (flags : Nat → Bool) : Nat → List String → List Value
  | _, [] => []
  | j, s :: rest => inferCell (flags j) s :: inferRowAux flags (j + 1) rest

/-- Embedding of `load_olap_cube`: reparse the written grid with per-column
numeric inference. -/
def load_olap_cube (cols : List String) (grid : List (List String)) : Frame :=
  { cols := cols,
    rows := grid.map (fun row => inferRowAux (colNumeric grid) 0 row) }

/-- The column type of the original cube, for the round-trip hypothesis. -/
inductive ColKind where
  | numK : ColKind
  | strK : ColKind
deriving DecidableEq, Repr

/-- A value compatible with its column's type: numeric columns hold numbers
or missing values; text columns hold missing values or non-empty texts that
do not parse as numbers. -/
def cellOk : ColKind → Value → Bool
  | _, .null => true
  | .numK, .num _ => true
  | .strK, .str s => !(s = "") && !(parseRatChars s.data).isSome
  | _, _ => false

/-- Column-wise type homogeneity of one row of values. -/
def rowOk : List ColKind → List Value → Bool
  | [], [] => true
  | k :: ks, v :: vs => cellOk k v && rowOk ks vs
  | _, _ => false

/-! ### Round-trip lemmas for the numeric cell encoding -/

/-- `digitChar` always produces a decimal digit character. -/
theorem isDigitChar_digitChar (n : Nat) : isDigitChar (digitChar n) = true := by
  have hm : n % 10 < 10 := Nat.mod_lt _ (by norm_num)
  unfold digitChar
  generalize hg : n % 10 = m
  rw [hg] at hm
  interval_cases m <;> decide

/-- Decoding a digit character recovers the digit. -/
theorem digitChar_toNat (n : Nat) : (digitChar n).toNat - 48 = n % 10 := by
  have hm : n % 10 < 10 := Nat.mod_lt _ (by norm_num)
  unfold digitChar
  generalize hg : n % 10 = m
  rw [hg] at hm
  interval_cases m <;> decide

/-- The accumulating decimal parser distributes over concatenation. -/
theorem parseNatAux_append (l1 l2 : List Char) :
    ∀ acc, parseNatAux acc (l1 ++ l2) =
      (parseNatAux acc l1).bind (fun m => parseNatAux m l2) := by
  induction l1 with
  | nil => intro acc; simp [parseNatAux]
  | cons c cs ih =>
    intro acc
    by_cases h : isDigitChar c = true
    · simp [parseNatAux, h, ih]
    · simp [parseNatAux, h]

/-- Parsing the fuelled digit rendering of `n` shifts the accumulator by the
digit count and adds `n`. -/
theorem parseNatAux_natDigitsAux :
    ∀ (fuel n : Nat), n < fuel → ∀ acc,
      parseNatAux acc (natDigitsAux fuel n) =
        some (acc * 10 ^ (natDigitsAux fuel n).length + n) := by
  intro fuel
  induction fuel with
  | zero => intro n h; exact absurd h (Nat.not_lt_zero n)
  | succ fuel ih =>
    intro n h acc
    by_cases h10 : n < 10
    · simp only [natDigitsAux, h10, if_true]
      simp [parseNatAux, isDigitChar_digitChar, digitChar_toNat,
        Nat.mod_eq_of_lt h10]
    · have hdiv : n / 10 < fuel := by omega
      simp only [natDigitsAux, h10, if_false]
      rw [parseNatAux_append, ih (n / 10) hdiv acc]
      simp only [Option.some_bind]
      simp only [parseNatAux, isDigitChar_digitChar, if_true, digitChar_toNat]
      rw [List.length_append]
      congr 1
      have hmm2 : n % 10 % 10 = n % 10 := Nat.mod_mod_of_dvd n (dvd_refl 10)
      rw [hmm2]
      have hmod : n / 10 * 10 + n % 10 = n := by omega
      generalize (natDigitsAux fuel (n / 10)).length = L
      calc (acc * 10 ^ L + n / 10) * 10 + n % 10
          = acc * (10 ^ L * 10) + (n / 10 * 10 + n % 10) := by ring
        _ = acc * 10 ^ (L + 1) + n := by rw [hmod, pow_succ]

/-- The digit rendering is never empty (with non-zero fuel). -/
theorem natDigitsAux_ne_nil (fuel n : Nat) :
    natDigitsAux (fuel + 1) n ≠ [] := by
  by_cases h10 : n < 10 <;> simp [natDigitsAux, h10]

/-- Every character of the digit rendering is a digit. -/
theorem natDigitsAux_digits :
    ∀ (fuel n : Nat) (c : Char), c ∈ natDigitsAux fuel n →
      isDigitChar c = true := by
  intro fuel
  induction fuel with
  | zero => intro n c hc; simp [natDigitsAux] at hc
  | succ fuel ih =>
    intro n c hc
    by_cases h10 : n < 10
    · simp only [natDigitsAux, h10, if_true, List.mem_singleton] at hc
      exact hc ▸ isDigitChar_digitChar n
    · simp only [natDigitsAux, h10, if_false, List.mem_append,
        List.mem_singleton] at hc
      rcases hc with hc | hc
      · exact ih _ c hc
      · exact hc ▸ isDigitChar_digitChar (n % 10)

/-- Parsing inverts the decimal rendering of a natural number. -/
theorem parseNatChars_natToChars (n : Nat) :
    parseNatChars (natToChars n) = some n := by
  unfold parseNatChars natToChars
  rw [if_neg (by simp [List.isEmpty_iff, natDigitsAux_ne_nil])]
  rw [parseNatAux_natDigitsAux (n + 1) n (Nat.lt_succ_self n) 0]
  simp

/-- Parsing inverts the decimal rendering of an integer. -/
theorem parseIntChars_intToChars (n : Int) :
    parseIntChars (intToChars n) = some n := by
  by_cases hneg : n < 0
  · simp only [intToChars, if_pos hneg]
    simp only [parseIntChars, if_pos rfl]
    rw [parseNatChars_natToChars]
    simp [abs_of_neg hneg]
  · simp only [intToChars, if_neg hneg]
    cases hl : natToChars n.toNat with
    | nil =>
      exact absurd hl (natDigitsAux_ne_nil _ _)
    | cons c cs =>
      have hc : isDigitChar c = true :=
        natDigitsAux_digits _ _ c (by
          rw [show natDigitsAux (n.toNat + 1) n.toNat = c :: cs from hl]
          exact List.mem_cons_self c cs)
      have hcm : ¬ c = '-' := fun heq => absurd (heq ▸ hc) (by decide)
      simp only [parseIntChars, if_neg hcm]
      rw [← hl, parseNatChars_natToChars]
      simp
      omega

/-- `takeWhile` keeps a list all of whose elements satisfy the predicate. -/
theorem takeWhile_all {α : Type} (p : α → Bool) :
    ∀ l : List α, (∀ c ∈ l, p c = true) → l.takeWhile p = l := by
  intro l
  induction l with
  | nil => intro _; rfl
  | cons a as ih =>
    intro h
    rw [List.takeWhile_cons, if_pos (h a (List.mem_cons_self a as)),
      ih (fun c hc => h c (List.mem_cons_of_mem a hc))]

/-- `dropWhile` empties a list all of whose elements satisfy the predicate. -/
theorem dropWhile_all {α : Type} (p : α → Bool) :
    ∀ l : List α, (∀ c ∈ l, p c = true) → l.dropWhile p = [] := by
  intro l
  induction l with
  | nil => intro _; rfl
  | cons a as ih =>
    intro h
    rw [List.dropWhile_cons, if_pos (h a (List.mem_cons_self a as)),
      ih (fun c hc => h c (List.mem_cons_of_mem a hc))]

/-- `takeWhile` stops exactly at a separator that fails the predicate. -/
theorem takeWhile_append_sep {α : Type} (p : α → Bool) (sep : α)
    (hsep : p sep = false) :
    ∀ (A B : List α), (∀ c ∈ A, p c = true) →
      (A ++ sep :: B).takeWhile p = A := by
  intro A
  induction A with
  | nil =>
    intro B _
    simp [List.takeWhile_cons, hsep]
  | cons a as ih =>
    intro B h
    rw [List.cons_append, List.takeWhile_cons,
      if_pos (h a (List.mem_cons_self a as)),
      ih B (fun c hc => h c (List.mem_cons_of_mem a hc))]

/-- `dropWhile` drops exactly up to a separator that fails the predicate. -/
theorem dropWhile_append_sep {α : Type} (p : α → Bool) (sep : α)
    (hsep : p sep = false) :
    ∀ (A B : List α), (∀ c ∈ A, p c = true) →
      (A ++ sep :: B).dropWhile p = sep :: B := by
  intro A
  induction A with
  | nil =>
    intro B _
    simp [List.dropWhile_cons, hsep]
  | cons a as ih =>
    intro B h
    rw [List.cons_append, List.dropWhile_cons,
      if_pos (h a (List.mem_cons_self a as)),
      ih B (fun c hc => h c (List.mem_cons_of_mem a hc))]

/-- Every character of an integer rendering is a digit or the minus sign. -/
theorem intToChars_chars (n : Int) (c : Char) (hc : c ∈ intToChars n) :
    isDigitChar c = true ∨ c = '-' := by
  unfold intToChars at hc
  by_cases hneg : n < 0
  · rw [if_pos hneg] at hc
    rcases List.mem_cons.mp hc with rfl | hc
    · exact Or.inr rfl
    · exact Or.inl (natDigitsAux_digits _ _ c hc)
  · rw [if_neg hneg] at hc
    exact Or.inl (natDigitsAux_digits _ _ c hc)

/-- An integer rendering never contains the fraction separator. -/
theorem intToChars_ne_slash (n : Int) (c : Char) (hc : c ∈ intToChars n) :
    ¬ c = '/' := by
  intro h
  rcases intToChars_chars n c hc with hd | hm
  · rw [h] at hd
    exact absurd hd (by decide)
  · rw [h] at hm
    exact absurd hm (by decide)

/-- Parsing inverts the exact rational encoding. -/
theorem parseRatChars_ratToChars (q : Rat) :
    parseRatChars (ratToChars q) = some q := by
  by_cases hden : q.den = 1
  · rw [ratToChars, if_pos hden]
    simp only [parseRatChars]
    rw [takeWhile_all _ _
        (fun c hc => by simp [intToChars_ne_slash q.num c hc]),
      dropWhile_all _ _
        (fun c hc => by simp [intToChars_ne_slash q.num c hc])]
    simp [parseIntChars_intToChars]
    have hnd := Rat.num_div_den q
    rw [hden] at hnd
    simpa using hnd
  · rw [ratToChars, if_neg hden]
    simp only [parseRatChars]
    rw [takeWhile_append_sep _ '/' (by decide) _ _
        (fun c hc => by simp [intToChars_ne_slash q.num c hc]),
      dropWhile_append_sep _ '/' (by decide) _ _
        (fun c hc => by simp [intToChars_ne_slash q.num c hc])]
    simp [parseIntChars_intToChars, parseNatChars_natToChars, Rat.mkRat_self]

/-- The `str(list)` body contains digits, signs, commas and spaces — never a
slash. -/
theorem idsChars_ne_slash : ∀ (ids : List Int), ∀ c ∈ idsChars ids, ¬ c = '/' := by
  intro ids
  induction ids with
  | nil =>
    intro c hc
    simp [idsChars] at hc
  | cons i is ih =>
    intro c hc
    cases is with
    | nil =>
      exact intToChars_ne_slash i c (by simpa [idsChars] using hc)
    | cons j js =>
      simp only [idsChars, List.mem_append, List.mem_cons] at hc
      rcases hc with hc | hc | hc | hc
      · exact intToChars_ne_slash i c hc
      · subst hc
        decide
      · subst hc
        decide
      · exact ih c (by simpa [idsChars] using hc)

/-- The bracketed `sale_ids` text never parses as a number. -/
theorem parseRatChars_printIds (ids : List Int) :
    parseRatChars (printIds ids).data = none := by
  have hall : ∀ c ∈ '[' :: (idsChars ids ++ [']']),
      (fun c => decide (¬ c = '/')) c = true := by
    intro c hc
    rcases List.mem_cons.mp hc with rfl | hc
    · decide
    rcases List.mem_append.mp hc with hc | hc
    · simp [idsChars_ne_slash ids c hc]
    · rcases List.mem_singleton.mp hc with rfl
      decide
  show parseRatChars ('[' :: (idsChars ids ++ [']'])) = none
  simp only [parseRatChars]
  rw [takeWhile_all _ _ hall, dropWhile_all _ _ hall]
  have hd : isDigitChar '[' = false := by decide
  simp [parseIntChars, parseNatChars, parseNatAux, hd]

/-- Loading an empty cell gives a missing value, whatever the column type. -/
theorem inferCell_printValue_null (f : Bool) :
    inferCell f (printValue .null) = .null := by
  simp [inferCell, printValue]

/-- Loading a non-empty, non-numeric text cell gives the text back, whatever
the inferred column type. -/
theorem inferCell_printValue_str (f : Bool) (s : String) (hs1 : ¬ s = "")
    (hs2 : (parseRatChars s.data).isSome = false) :
    inferCell f (printValue (.str s)) = .str s := by
  show inferCell f s = .str s
  unfold inferCell
  rw [if_neg hs1]
  cases f
  · simp
  · rw [if_pos rfl]
    have hnone : parseRatChars s.data = none :=
      Option.not_isSome_iff_eq_none.mp (by simp [hs2])
    rw [hnone]

/-- Loading a printed number in a numerically inferred column recovers the
number exactly. -/
theorem inferCell_printValue_num (q : Rat) :
    inferCell true (printValue (.num q)) = .num q := by
  have hne : ratToChars q ≠ [] := by
    unfold ratToChars intToChars
    by_cases hden : q.den = 1
    · rw [if_pos hden]
      by_cases hneg : q.num < 0
      · simp [hneg]
      · rw [if_neg hneg]
        exact natDigitsAux_ne_nil _ _
    · rw [if_neg hden]
      simp
  show inferCell true ⟨ratToChars q⟩ = .num q
  unfold inferCell
  rw [if_neg (by
      intro h
      exact hne (by simpa [String.ext_iff] using h)),
    if_pos rfl,
    show (⟨ratToChars q⟩ : String).data = ratToChars q from rfl,
    parseRatChars_ratToChars]

/-- Loading the bracketed `sale_ids` cell gives its text, whatever the
inferred column type. -/
theorem inferCell_printIds (f : Bool) (ids : List Int) :
    inferCell f (printIds ids) = .str (printIds ids) := by
  unfold inferCell
  rw [if_neg (by
      intro h
      rw [String.ext_iff] at h
      exact List.noConfusion (show '[' :: (idsChars ids ++ [']']) = [] from h))]
  cases f
  · simp
  · rw [if_pos rfl, parseRatChars_printIds]

/-- A type-homogeneous row has as many cells as there are column kinds. -/
theorem rowOk_length : ∀ (ks : List ColKind) (vs : List Value),
    rowOk ks vs = true → vs.length = ks.length := by
  intro ks
  induction ks with
  | nil =>
    intro vs h
    cases vs with
    | nil => rfl
    | cons v vs' => simp [rowOk] at h
  | cons k ks ih =>
    intro vs h
    cases vs with
    | nil => simp [rowOk] at h
    | cons v vs' =>
      simp only [rowOk, Bool.and_eq_true] at h
      simp [ih vs' h.2]

/-- Indexing a type-homogeneous row yields a kind-compatible cell. -/
theorem rowOk_get : ∀ (ks : List ColKind) (vs : List Value),
    rowOk ks vs = true → ∀ (i : Nat) (v : Value), vs[i]? = some v →
      ∃ k, ks[i]? = some k ∧ cellOk k v = true := by
  intro ks
  induction ks with
  | nil =>
    intro vs h i v hv
    cases vs with
    | nil => simp at hv
    | cons v' vs' => simp [rowOk] at h
  | cons k ks ih =>
    intro vs h i v hv
    cases vs with
    | nil => simp [rowOk] at h
    | cons v' vs' =>
      simp only [rowOk, Bool.and_eq_true] at h
      cases i with
      | zero =>
        rw [List.getElem?_cons_zero] at hv
        exact ⟨k, List.getElem?_cons_zero,
          by rw [← Option.some.inj hv]; exact h.1⟩
      | succ i =>
        rw [List.getElem?_cons_succ] at hv
        obtain ⟨k', hk', hck'⟩ := ih vs' h.2 i v hv
        exact ⟨k', by rw [List.getElem?_cons_succ]; exact hk', hck'⟩

/-- A column declared numeric by the round-trip hypothesis is inferred
numeric by the loader: every printed cell of that column is empty or parses. -/
theorem colNumeric_printed (rows : List CubeRow) (kinds : List ColKind)
    (hok : ∀ r ∈ rows, rowOk kinds (r.key ++ r.aggs) = true)
    (j : Nat) (hj : kinds[j]? = some .numK) :
    colNumeric
      (rows.map
        (fun r => (r.key ++ r.aggs).map printValue ++ [printIds r.sale_ids]))
      j = true := by
  unfold colNumeric
  rw [List.all_eq_true]
  intro row hrow
  rw [List.mem_map] at hrow
  obtain ⟨r, hr, rfl⟩ := hrow
  have hlen : (r.key ++ r.aggs).length = kinds.length :=
    rowOk_length _ _ (hok r hr)
  have hjlen : j < kinds.length := by
    by_contra hcon
    rw [List.getElem?_eq_none (le_of_not_lt hcon)] at hj
    exact Option.noConfusion hj
  have hjv : j < (r.key ++ r.aggs).length := by omega
  obtain ⟨v, hv⟩ : ∃ v, (r.key ++ r.aggs)[j]? = some v :=
    ⟨_, List.getElem?_eq_getElem hjv⟩
  obtain ⟨k, hk, hck⟩ := rowOk_get _ _ (hok r hr) j v hv
  have hkn : k = ColKind.numK := by
    rw [hj] at hk
    exact (Option.some.inj hk).symm
  subst hkn
  have hcell :
      (((r.key ++ r.aggs).map printValue ++ [printIds r.sale_ids]).getD j "") =
        printValue v := by
    rw [List.getD_eq_getElem?_getD, List.getElem?_append,
      if_pos (by rw [List.length_map]; exact hjv), List.getElem?_map, hv]
    rfl
  rw [hcell]
  cases v with
  | null => decide
  | str s => simp [cellOk] at hck
  | num q =>
    unfold cellNumericOk
    rw [show (printValue (.num q)).data = ratToChars q from rfl,
      parseRatChars_ratToChars]
    simp

/-- Loading a printed row recovers the original cells, given that each cell
loads back to itself under its column's inferred flag. -/
theorem inferRowAux_printed (flags : Nat → Bool) (ids : List Int) :
    ∀ (vs : List Value) (j : Nat),
      (∀ (i : Nat) (v : Value), vs[i]? = some v →
        inferCell (flags (j + i)) (printValue v) = v) →
      inferRowAux flags j (vs.map printValue ++ [printIds ids]) =
        vs ++ [.str (printIds ids)] := by
  intro vs
  induction vs with
  | nil =>
    intro j _
    show inferCell (flags j) (printIds ids) :: inferRowAux flags (j + 1) [] =
      [.str (printIds ids)]
    rw [inferCell_printIds]
    rfl
  | cons v vs' ih =>
    intro j h
    show inferCell (flags j) (printValue v) ::
        inferRowAux flags (j + 1) (vs'.map printValue ++ [printIds ids]) =
      v :: (vs' ++ [.str (printIds ids)])
    have h0 := h 0 v List.getElem?_cons_zero
    rw [Nat.add_zero] at h0
    rw [h0, ih (j + 1) (fun i v' hv' => by
      have := h (i + 1) v' (by rw [List.getElem?_cons_succ]; exact hv')
      rwa [show j + (i + 1) = j + 1 + i by omega] at this)]

/-- C8 (amended, proved): writing a cube and re-loading the file reproduces
the row count exactly and every cell value, provided the cube is column-type
homogeneous (each non-`sale_ids` column holds only numbers-or-missing, or
only missing values and non-empty texts that do not read as numbers):
numbers, texts and missing values come back unchanged, and each `sale_ids`
list comes back as its bracketed textual rendering. -/
theorem write_then_load_roundtrip (cube : Cube) (kinds : List ColKind)
    (hok : ∀ r ∈ cube.rows, rowOk kinds (r.key ++ r.aggs) = true) :
    load_olap_cube (write_cube_to_csv cube).1 (write_cube_to_csv cube).2 =
      { cols := cube.cols,
        rows := cube.rows.map
          (fun r => (r.key ++ r.aggs) ++ [.str (printIds r.sale_ids)]) } ∧
    (load_olap_cube (write_cube_to_csv cube).1
      (write_cube_to_csv cube).2).rows.length = cube.rows.length := by
  have hmain :
      load_olap_cube (write_cube_to_csv cube).1 (write_cube_to_csv cube).2 =
        { cols := cube.cols,
          rows := cube.rows.map
            (fun r => (r.key ++ r.aggs) ++ [.str (printIds r.sale_ids)]) } := by
    unfold load_olap_cube write_cube_to_csv
    simp only [Frame.mk.injEq, List.map_map]
    refine ⟨trivial, List.map_congr_left ?_⟩
    intro r hr
    show inferRowAux _ 0 ((r.key ++ r.aggs).map printValue ++
      [printIds r.sale_ids]) = (r.key ++ r.aggs) ++ [.str (printIds r.sale_ids)]
    apply inferRowAux_printed
    intro i v hv
    obtain ⟨k, hk, hck⟩ := rowOk_get _ _ (hok r hr) i v hv
    cases k with
    | strK =>
      cases v with
      | null => exact inferCell_printValue_null _
      | num q => simp [cellOk] at hck
      | str s =>
        simp only [cellOk, Bool.and_eq_true, Bool.not_eq_true'] at hck
        exact inferCell_printValue_str _ s (by simpa using hck.1) hck.2
    | numK =>
      cases v with
      | null => exact inferCell_printValue_null _
      | str s => simp [cellOk] at hck
      | num q =>
        have hflag := colNumeric_printed cube.rows kinds hok i hk
        rw [Nat.zero_add, hflag]
        exact inferCell_printValue_num q
  exact ⟨hmain, by rw [hmain]; simp⟩

/-- A concrete one-row cube used to witness the round-trip theorem. -/
def roundtripWitnessCube : Cube :=
  { cols := ["region", "sale_amount_sum", "sale_ids"],
    rows := [⟨[.str "East"], [.num (mkRat 123 10)], [1, 2]⟩] }

/-- Witness for C8's amended theorem on a concrete cube with a text column
and a numeric column. -/
theorem write_then_load_roundtrip_witness :
    (∀ r ∈ roundtripWitnessCube.rows,
      rowOk [ColKind.strK, ColKind.numK] (r.key ++ r.aggs) = true) ∧
    (load_olap_cube (write_cube_to_csv roundtripWitnessCube).1
        (write_cube_to_csv roundtripWitnessCube).2 =
      { cols := roundtripWitnessCube.cols,
        rows := roundtripWitnessCube.rows.map
          (fun r => (r.key ++ r.aggs) ++ [.str (printIds r.sale_ids)]) } ∧
     (load_olap_cube (write_cube_to_csv roundtripWitnessCube).1
        (write_cube_to_csv roundtripWitnessCube).2).rows.length =
       roundtripWitnessCube.rows.length) :=
  ⟨by decide,
   write_then_load_roundtrip roundtripWitnessCube [ColKind.strK, ColKind.numK]
     (by decide)⟩

/-- C8 (counterexample): the claim as stated over every cube fails: a cube
whose only data cell is the empty string writes an empty CSV field, which
`read_csv` loads back as missing (NaN), not as the empty string — the value
is not reproduced (and not by numeric formatting): the loaded row is
`[null, "[1]"]` while the original cell was `""`. -/
theorem cube_roundtrip_empty_string_not_reproduced :
    (load_olap_cube
      (write_cube_to_csv
        { cols := ["region", "sale_ids"], rows := [⟨[.str ""], [], [1]⟩] }).1
      (write_cube_to_csv
        { cols := ["region", "sale_ids"], rows := [⟨[.str ""], [], [1]⟩] }).2).rows =
      [[Value.null, Value.str "[1]"]] ∧
    Value.null ≠ Value.str "" := by
  decide
